import Mathlib

/-!
Verification of the cache-simulator core (`cachesimulator/cache.py` and
`cachesimulator/simulator.py`) against its natural-language specification.

The Python code is shallowly embedded: the `Cache` dict subclass becomes a
structure holding an association list of sets (keyed by binary index strings,
Python dict insertion order), a global recency list and the `is_l2` flag.
Fallible Python operations (KeyError on a missing dict key, IndexError on
`pop(0)` of an empty list) are modelled with `Option`, `none` being an
uncaught exception.  The helper modules `bin_addr.py`, `word_addr.py` and
`reference.py` are imported by the source but are not part of the given
sources; the few facts needed about them (binary address strings,
tag/index/offset slicing, cache-entry construction) are modelled from the
spec and marked as such.
-/

namespace CacheSim

/-! ## Binary address strings (modelled from the spec)

`BinaryAddress(word_addr, num_addr_bits)` is the standard binary
representation of the address, zero-padded on the left to the requested
width (Python `bin(addr)[2:].zfill(num_addr_bits)`); a width of zero still
yields at least the digit string of the number, so `BinaryAddress 0 0 = "0"`,
which is exactly the synthetic `"0"` set key of fully-associative caches. -/

/-- Binary digits of `n`, most significant first, by fuel-indexed recursion
(`fuel ≥ n` makes the result exact). -/
def natBinDigits : Nat → Nat → List Char
  | _, 0 => []
  | 0, _ + 1 => []
  | fuel + 1, n + 1 =>
    natBinDigits fuel ((n + 1) / 2) ++ [if (n + 1) % 2 = 1 then '1' else '0']

/-- Python `bin(n)[2:]`: the binary digit string of `n`, `"0"` for zero. -/
def natToBinString (n : Nat) : String :=
  if n = 0 then "0" else String.mk (natBinDigits n n)

/-- Python `str.zfill`: pad with `'0'` on the left up to width `w`. -/
def zfill (w : Nat) (s : String) : String :=
  String.mk (List.replicate (w - s.length) '0') ++ s

/-- Modelled from the spec: `bin_addr.py` is not under the given sources.  A
`BinaryAddress` is the full-width binary representation of a word address
used for set keys and for tag/index/offset slicing. -/
def BinaryAddress (word_addr num_addr_bits : Nat) : String :=
  zfill num_addr_bits (natToBinString word_addr)

/-! ## Data model -/

/-- One block entry `{tag, index, data}` as stored in a set.  `tag` and
`index` are `Option String` because the corresponding address field is the
Python sentinel `None` when its bit width is zero. -/
structure CacheBlock where
  tag : Option String
  index : Option String
  data : List Nat
deriving Repr, DecidableEq

/-- One decomposed address reference (`reference.py`, not under the given
sources; fields are as the spec's Data Model section lists them). -/
structure Reference where
  word_addr : Nat
  bin_addr : String
  tag : Option String
  index : Option String
  offset : Option String
deriving Repr, DecidableEq

/-- Modelled from the spec: `reference.py` is not under the given sources.
The Address Decomposer slices the full binary representation into offset
(low bits), index (next bits) and tag (remaining high bits); a field whose
bit width is zero is absent (`none`). -/
def mkReference (num_addr_bits num_offset_bits num_index_bits num_tag_bits word_addr : Nat) :
    Reference :=
  let cs := (BinaryAddress word_addr num_addr_bits).toList
  { word_addr := word_addr
    bin_addr := BinaryAddress word_addr num_addr_bits
    tag := if num_tag_bits = 0 then none else some (String.mk (cs.take num_tag_bits))
    index :=
      if num_index_bits = 0 then none
      else some (String.mk ((cs.drop num_tag_bits).take num_index_bits))
    offset :=
      if num_offset_bits = 0 then none
      else some (String.mk (cs.drop (num_tag_bits + num_index_bits))) }

/-- Modelled from the spec: the block entry materialized for a missed
reference carries the reference's tag and index and the ordered word values
of the addressed block (the consecutive word addresses of the block that
contains `word_addr`). -/
def consecutiveWords (word_addr num_words_per_block : Nat) : List Nat :=
  (List.range num_words_per_block).map
    fun i => word_addr / num_words_per_block * num_words_per_block + i

/-- Modelled from the spec: `Reference.get_cache_entry` builds the
`{tag, index, data}` dict inserted into a cache store. -/
def Reference.get_cache_entry (ref : Reference) (num_words_per_block : Nat) : CacheBlock :=
  { tag := ref.tag, index := ref.index, data := consecutiveWords ref.word_addr num_words_per_block }

/-- Hit/miss classification assigned to a reference (`ReferenceCacheStatus`). -/
inductive CacheStatus where
  | hit
  | miss
deriving Repr, DecidableEq

/-- The `Cache` dict subclass of `cache.py`: a mapping from binary index
string to the ordered list of blocks of that set (insertion order, oldest
first), plus the global recency list (least-recently used first) and the
`is_l2` display flag. -/
structure Cache where
  store : List (String × List CacheBlock)
  recently_used_addrs : List (Option String × Option String)
  is_l2 : Bool
deriving Repr, DecidableEq

/-- Python `self[k]` read access on the store, `none` for a missing key
(KeyError when the source does not guard the access). -/
def dictGet? (store : List (String × List CacheBlock)) (k : String) :
    Option (List CacheBlock) :=
  match store with
  | [] => none
  | (k2, v) :: rest => if k2 = k then some v else dictGet? rest k

/-- Writing back the (in Python, in-place mutated) block list of key `k`:
replace the value at the first occurrence of `k`, append if absent. -/
def dictSet (store : List (String × List CacheBlock)) (k : String) (v : List CacheBlock) :
    List (String × List CacheBlock) :=
  match store with
  | [] => [(k, v)]
  | (k2, v2) :: rest => if k2 = k then (k2, v) :: rest else (k2, v2) :: dictSet rest k v

/-- The dict key addressed by an (optional) index: Python `self["0"]` when
the index is `None` (fully associative), `self[index]` otherwise. -/
def keyOf : Option String → String
  | none => "0"
  | some s => s

/-- Python truthiness of the `l2_cache` operand of `if l2_cache`: `None` is
falsy; a `Cache` is a dict subclass, truthy iff it has at least one key. -/
def pyTruthy : Option Cache → Bool
  | none => false
  | some c => !c.store.isEmpty

/-- Python `Cache.__init__` with `cache=None`: `num_sets` empty sets keyed by the
binary representation of their set number at width `num_index_bits`. -/
def Cache.init (num_sets num_index_bits : Nat) (is_l2 : Bool) : Cache :=
  { store := (List.range num_sets).map fun i => (BinaryAddress i num_index_bits, [])
    recently_used_addrs := []
    is_l2 := is_l2 }

/-- Python `Cache.mark_ref_as_last_seen`: move the `(index, tag)` identity of the
reference to the most-recently-used end of the global recency list
(`list.remove` drops the first occurrence; absent identities are appended). -/
def Cache.mark_ref_as_last_seen (c : Cache) (ref : Reference) : Cache :=
  let addr_id := (ref.index, ref.tag)
  let l :=
    if c.recently_used_addrs.contains addr_id then c.recently_used_addrs.erase addr_id
    else c.recently_used_addrs
  { c with recently_used_addrs := l ++ [addr_id] }

/-- Python `Cache.is_hit`: `self["0"]` for an undefined index (KeyError, hence
`none`, if the synthetic set is missing), the addressed set if its key is
present, otherwise `False`; then a linear scan for a matching tag. -/
def Cache.is_hit (c : Cache) (addr_index : Option String) (addr_tag : Option String) :
    Option Bool :=
  match addr_index with
  | none =>
    match dictGet? c.store "0" with
    | none => none
    | some blocks => some (blocks.any fun b => b.tag = addr_tag)
  | some idx =>
    match dictGet? c.store idx with
    | none => some false
    | some blocks => some (blocks.any fun b => b.tag = addr_tag)

/-- Python `Cache.replace_block`: scan the recency list (reversed for `mru`), and
replace, in place, the first block of `blocks` whose `(index, tag)` matches
a scanned pair.  This is the victim-selection routine the spec describes; in
the source it is never invoked by `set_block`. -/
def replaceScan (recency : List (Option String × Option String)) (blocks : List CacheBlock)
    (addr_index : Option String) (new_entry : CacheBlock) : List CacheBlock :=
  match recency with
  | [] => blocks
  | (recent_index, recent_tag) :: rest =>
    if recent_index = addr_index then
      match blocks.findIdx? (fun b => b.tag = recent_tag) with
      | some i => blocks.set i new_entry
      | none => replaceScan rest blocks addr_index new_entry
    else replaceScan rest blocks addr_index new_entry

/-- Python `Cache.replace_block` (see `replaceScan` for the loop). -/
def Cache.replace_block (c : Cache) (blocks : List CacheBlock) (replacement_policy : String)
    (addr_index : Option String) (new_entry : CacheBlock) : List CacheBlock :=
  let recently_used_addrs :=
    if replacement_policy = "mru" then c.recently_used_addrs.reverse
    else c.recently_used_addrs
  replaceScan recently_used_addrs blocks addr_index new_entry

/-- Result of `Cache.set_block`: the updated store, the (possibly updated)
`l2_cache` argument, and how many eviction write-backs into the next level
the call performed (0 or 1). -/
structure SetBlockResult where
  self : Cache
  l2 : Option Cache
  writebacks : Nat
deriving Repr, DecidableEq

/-- Python `Cache.set_block` as invoked with its default argument `l2_cache=None`
(the shape of the recursive write-back call in the source): the eviction
branch pops the oldest block of the full set without any further write-back
(`if l2_cache` is false for `None`), then the new entry is appended.
`none` models the uncaught KeyError (missing set key) or IndexError
(`pop(0)` of an empty set, possible only for `num_blocks_per_set = 0`). -/
def Cache.set_blockNoL2 (c : Cache) (replacement_policy : String) (num_blocks_per_set : Nat)
    (addr_index : Option String) (new_entry : CacheBlock) : Option Cache :=
  let key := keyOf addr_index
  match dictGet? c.store key with
  | none => none
  | some blocks =>
    if blocks.length = num_blocks_per_set then
      match blocks with
      | [] => none
      | _evicted :: rest => some { c with store := dictSet c.store key (rest ++ [new_entry]) }
    else some { c with store := dictSet c.store key (blocks ++ [new_entry]) }

/-- Python `Cache.set_block`: fetch the addressed set (`self["0"]` when the index is
`None`); if it already holds `num_blocks_per_set` blocks, pop its oldest
block and, when an `l2_cache` is attached (truthy) and this store is not
itself the L2, insert the evicted block into the L2 store at the evicted
block's own index (that recursive call passes no `l2_cache`, hence
`set_blockNoL2`); finally append the new entry.  `self` and `l2_cache` are
distinct stores, as the driver constructs them. -/
def Cache.set_block (c : Cache) (replacement_policy : String) (num_blocks_per_set : Nat)
    (addr_index : Option String) (new_entry : CacheBlock) (l2_cache : Option Cache) :
    Option SetBlockResult :=
  let key := keyOf addr_index
  match dictGet? c.store key with
  | none => none
  | some blocks =>
    if blocks.length = num_blocks_per_set then
      match blocks with
      | [] => none
      | evicted :: rest =>
        let self1 : Cache := { c with store := dictSet c.store key (rest ++ [new_entry]) }
        match l2_cache with
        | none => some { self := self1, l2 := none, writebacks := 0 }
        | some l2 =>
          if pyTruthy (some l2) && !c.is_l2 then
            match l2.set_blockNoL2 replacement_policy num_blocks_per_set evicted.index evicted with
            | none => none
            | some l2a => some { self := self1, l2 := some l2a, writebacks := 1 }
          else some { self := self1, l2 := some l2, writebacks := 0 }
    else
      some { self := { c with store := dictSet c.store key (blocks ++ [new_entry]) },
             l2 := l2_cache, writebacks := 0 }

/-- Python `Cache.get_block`: direct lookup with no side effects.  Note the guard is
`if addr_index in self`, and dict keys are strings, so an undefined (`None`)
index never matches a key and the function returns `None` without consulting
the synthetic `"0"` set. -/
def Cache.get_block (c : Cache) (addr_index : Option String) (addr_tag : Option String) :
    Option CacheBlock :=
  match addr_index with
  | none => none
  | some idx =>
    match dictGet? c.store idx with
    | none => none
    | some blocks => blocks.find? fun b => b.tag = addr_tag

/-- The loop body of `Cache.read_refs` for one reference: mark it seen, test
the hit, and on a miss insert into L1 (with possible eviction write-back into
the attached L2) and then, if an L2 is attached and does not already hold
this tag at this index, insert the same entry into L2 directly.  Returns the
updated L1, the updated `l2_cache` argument and the assigned status. -/
def Cache.process_ref (c : Cache) (num_blocks_per_set num_words_per_block : Nat)
    (replacement_policy : String) (ref : Reference) (l2_cache : Option Cache) :
    Option (Cache × Option Cache × CacheStatus) :=
  let c1 := c.mark_ref_as_last_seen ref
  match c1.is_hit ref.index ref.tag with
  | none => none
  | some true => some (c1, l2_cache, CacheStatus.hit)
  | some false =>
    match c1.set_block replacement_policy num_blocks_per_set ref.index
        (ref.get_cache_entry num_words_per_block) l2_cache with
    | none => none
    | some sbr =>
      if pyTruthy sbr.l2 then
        match sbr.l2 with
        | none => none
        | some l2v =>
          match l2v.is_hit ref.index ref.tag with
          | none => none
          | some true => some (sbr.self, some l2v, CacheStatus.miss)
          | some false =>
            match l2v.set_block replacement_policy num_blocks_per_set ref.index
                (ref.get_cache_entry num_words_per_block) none with
            | none => none
            | some sbr2 => some (sbr.self, some sbr2.self, CacheStatus.miss)
      else some (sbr.self, sbr.l2, CacheStatus.miss)

/-- Result of `Cache.read_refs`: final L1 state, final `l2_cache` argument,
the statuses assigned to the processed references (one assignment to
`ref.cache_status` per reference, in input order) and the Python return
value, which is `None` because the method body has no return statement. -/
structure ReadRefsResult where
  l1 : Cache
  l2 : Option Cache
  statuses : List CacheStatus
  ret : Option Nat
deriving Repr, DecidableEq

/-- Python `Cache.read_refs`: process the references in input order (see
`Cache.process_ref` for the loop body).  The method returns `None`. -/
def Cache.read_refs (c : Cache) (num_blocks_per_set num_words_per_block : Nat)
    (replacement_policy : String) (refs : List Reference) (l2_cache : Option Cache) :
    Option ReadRefsResult :=
  match refs with
  | [] => some { l1 := c, l2 := l2_cache, statuses := [], ret := none }
  | ref :: rest =>
    match c.process_ref num_blocks_per_set num_words_per_block replacement_policy ref l2_cache with
    | none => none
    | some (c', l2', st) =>
      match c'.read_refs num_blocks_per_set num_words_per_block replacement_policy rest l2' with
      | none => none
      | some r => some { r with statuses := st :: r.statuses }

/-! ## Simulator driver (`simulator.py`, `Simulator.run_simulation`) -/

/-- Python `max` over a list of ints; `max()` of an empty sequence raises. -/
def pyMax : List Nat → Option Nat
  | [] => none
  | x :: xs => some (xs.foldl Nat.max x)

/-- Fuel-indexed floor of the base-2 logarithm (`fuel ≥ n` makes it exact). -/
def log2Fuel : Nat → Nat → Nat
  | 0, _ => 0
  | fuel + 1, n => if 2 ≤ n then log2Fuel fuel (n / 2) + 1 else 0

/-- Python `int(math.log2(n))` for `n ≥ 1`: the floor of the base-2
logarithm (`math.log2(0)` raises, handled by the caller). -/
def pyFloorLog2 (n : Nat) : Nat := log2Fuel n n

/-- What `Simulator.run_simulation` computes (the presentation calls aside):
the decomposed references (shared by both passes), the result of the L1+L2
pass, the result of the fresh L1-only pass over the same reference list, and
the two reported cycle totals, which are the return values of the two
`read_refs` calls. -/
structure SimResult where
  refs : List Reference
  pass1 : ReadRefsResult
  pass2 : ReadRefsResult
  total_cycles_with_l2 : Option Nat
  total_cycles_with_l1_only : Option Nat
deriving Repr, DecidableEq

/-- Python `Simulator.run_simulation`: derive the configuration, decompose the
addresses, run `read_refs` against an L1+L2 hierarchy and then against a
fresh L1-only store over the same reference list.  `none` models the
uncaught Python errors on degenerate configurations: division by zero for
`num_words_per_block = 0` or `num_blocks_per_set = 0`, `max()` of an empty
address list, `math.log2(0)` when the largest address or `num_sets` is zero,
and (modelled from the spec, since `reference.py` is not under the given
sources) the `InvalidConfiguration` failure when the derived tag-bit count
would be negative. -/
def run_simulation (num_blocks_per_set num_words_per_block cache_size : Nat)
    (replacement_policy : String) (num_addr_bits : Nat) (word_addrs : List Nat) :
    Option SimResult :=
  if num_words_per_block = 0 then none
  else
    let num_blocks := cache_size / num_words_per_block
    if num_blocks_per_set = 0 then none
    else
      let num_sets := num_blocks / num_blocks_per_set
      match pyMax word_addrs with
      | none => none
      | some maxAddr =>
        if maxAddr = 0 then none
        else if num_sets = 0 then none
        else
          let num_addr_bits2 := max num_addr_bits (pyFloorLog2 maxAddr + 1)
          let num_offset_bits := pyFloorLog2 num_words_per_block
          let num_index_bits := pyFloorLog2 num_sets
          if num_addr_bits2 < num_index_bits + num_offset_bits then none
          else
            let num_tag_bits := num_addr_bits2 - num_index_bits - num_offset_bits
            let refs := word_addrs.map
              (mkReference num_addr_bits2 num_offset_bits num_index_bits num_tag_bits)
            let l1 := Cache.init num_sets num_index_bits false
            let l2 := Cache.init num_sets num_index_bits true
            match l1.read_refs num_blocks_per_set num_words_per_block replacement_policy refs
                (some l2) with
            | none => none
            | some pass1 =>
              let l1_only := Cache.init num_sets num_index_bits false
              match l1_only.read_refs num_blocks_per_set num_words_per_block replacement_policy
                  refs none with
              | none => none
              | some pass2 =>
                some { refs := refs, pass1 := pass1, pass2 := pass2,
                       total_cycles_with_l2 := pass1.ret,
                       total_cycles_with_l1_only := pass2.ret }

/-- How many times the `cache_status` field of the `i`-th `Reference` object
is assigned during one `run_simulation` call: both `read_refs` passes are
given the same `refs` list, and a pass assigns the field exactly once for
each reference it processes (one entry of its `statuses` list). -/
def SimResult.statusWrites (res : SimResult) (i : Nat) : Nat :=
  (if i < res.pass1.statuses.length then 1 else 0) +
    (if i < res.pass2.statuses.length then 1 else 0)

/-! ## Basic lemmas about the dict model -/

theorem dictGet?_mem {s : List (String × List CacheBlock)} {k : String} {bs : List CacheBlock}
    (h : dictGet? s k = some bs) : (k, bs) ∈ s := by
  induction s with
  | nil => simp [dictGet?] at h
  | cons p rest ih =>
    obtain ⟨k2, v⟩ := p
    by_cases hk : k2 = k
    · subst hk
      simp [dictGet?] at h
      simp [h]
    · simp [dictGet?, hk] at h
      exact List.mem_cons_of_mem _ (ih h)

theorem dictGet?_dictSet_self (s : List (String × List CacheBlock)) (k : String)
    (v : List CacheBlock) : dictGet? (dictSet s k v) k = some v := by
  induction s with
  | nil => simp [dictGet?, dictSet]
  | cons p rest ih =>
    obtain ⟨k2, v2⟩ := p
    by_cases hk : k2 = k
    · simp [dictGet?, dictSet, hk]
    · simp [dictGet?, dictSet, hk, ih]

theorem dictGet?_dictSet_ne {k k' : String} (s : List (String × List CacheBlock))
    (v : List CacheBlock) (h : k' ≠ k) : dictGet? (dictSet s k v) k' = dictGet? s k' := by
  have hks : ¬ k = k' := fun hc => h hc.symm
  induction s with
  | nil => simp [dictGet?, dictSet, hks]
  | cons p rest ih =>
    obtain ⟨k2, v2⟩ := p
    by_cases hk : k2 = k
    · subst hk
      simp [dictGet?, dictSet, hks]
    · by_cases hk' : k2 = k'
      · simp [dictGet?, dictSet, hk, hk', h]
      · simp [dictGet?, dictSet, hk, hk', ih]

theorem mem_dictSet {s : List (String × List CacheBlock)} {k : String} {v : List CacheBlock}
    {p : String × List CacheBlock} (h : p ∈ dictSet s k v) : p ∈ s ∨ p = (k, v) := by
  induction s with
  | nil => simp [dictSet] at h; simp [h]
  | cons q rest ih =>
    obtain ⟨k2, v2⟩ := q
    by_cases hk : k2 = k
    · subst hk
      simp [dictSet] at h
      rcases h with h | h
      · right; simp [h]
      · left; exact List.mem_cons_of_mem _ h
    · simp [dictSet, hk] at h
      rcases h with h | h
      · left; simp [h]
      · rcases ih h with h2 | h2
        · left; exact List.mem_cons_of_mem _ h2
        · right; exact h2

theorem dictSet_ne_nil (s : List (String × List CacheBlock)) (k : String)
    (v : List CacheBlock) : dictSet s k v ≠ [] := by
  cases s with
  | nil => simp [dictSet]
  | cons p rest =>
    obtain ⟨k2, v2⟩ := p
    by_cases hk : k2 = k <;> simp [dictSet, hk]

theorem getLast?_snoc {α : Type} (l : List α) (a : α) : (l ++ [a]).getLast? = some a := by
  induction l with
  | nil => rfl
  | cons x xs ih =>
    cases xs with
    | nil => rfl
    | cons y ys => simpa using ih

/-! ## Claim C9: a missing index key is a clean miss, never an error -/

/-- C9: for every cache store and every index value absent from the store's
key set, `is_hit` returns `False` (a clean miss, not the `none` that models a
raised error) and `get_block` returns `None`, for any tag. -/
theorem claim_c9_absent_index_clean_miss (c : Cache) (s : String) (t : Option String)
    (h : dictGet? c.store s = none) :
    c.is_hit (some s) t = some false ∧ c.get_block (some s) t = none := by
  constructor
  · simp [Cache.is_hit, h]
  · simp [Cache.get_block, h]

theorem claim_c9_absent_index_clean_miss_witness :
    dictGet? (Cache.init 2 1 false).store "7" = none ∧
      (Cache.init 2 1 false).is_hit (some "7") (some "1") = some false ∧
      (Cache.init 2 1 false).get_block (some "7") (some "1") = none :=
  ⟨by decide, claim_c9_absent_index_clean_miss (Cache.init 2 1 false) "7" (some "1") (by decide)⟩

/-! ## Claim C10: `get_block` with an undefined index never consults set "0" -/

/-- C10: with an undefined (`None`) index, `get_block` returns `None` even
when a block with the requested tag resides in the synthetic `"0"` set,
because `None in self` is false for string dict keys; `is_hit` with an
undefined index does consult set `"0"`, so on a fully-associative store
holding the block the two disagree: `is_hit` is true, `get_block` is `None`. -/
theorem claim_c10_get_block_none_index (c : Cache) (t : Option String) (bs : List CacheBlock)
    (b : CacheBlock) (hbs : dictGet? c.store "0" = some bs) (hb : b ∈ bs) (ht : b.tag = t) :
    c.is_hit none t = some true ∧ c.get_block none t = none := by
  refine ⟨?_, rfl⟩
  simp only [Cache.is_hit, hbs]
  have : bs.any (fun bb => bb.tag = t) = true := by
    refine List.any_eq_true.mpr ⟨b, hb, ?_⟩
    simp [ht]
  simp [this]

theorem claim_c10_get_block_none_index_witness :
    dictGet? {
        store := [("0", [{ tag := some "1", index := none, data := [1] }])],
        recently_used_addrs := [], is_l2 := false : Cache }.store "0" =
      some [{ tag := some "1", index := none, data := [1] }] ∧
    ({ store := [("0", [{ tag := some "1", index := none, data := [1] }])],
       recently_used_addrs := [], is_l2 := false : Cache }.is_hit none (some "1") = some true ∧
     { store := [("0", [{ tag := some "1", index := none, data := [1] }])],
       recently_used_addrs := [], is_l2 := false : Cache }.get_block none (some "1") = none) :=
  ⟨by decide,
    claim_c10_get_block_none_index
      { store := [("0", [{ tag := some "1", index := none, data := [1] }])],
        recently_used_addrs := [], is_l2 := false }
      (some "1") [{ tag := some "1", index := none, data := [1] }]
      { tag := some "1", index := none, data := [1] } (by decide) (by decide) (by decide)⟩

/-! ## Recency list facts and claim C8 -/

theorem set_blockNoL2_recency {c c' : Cache} {p : String} {n : Nat} {i : Option String}
    {e : CacheBlock} (h : c.set_blockNoL2 p n i e = some c') :
    c'.recently_used_addrs = c.recently_used_addrs := by
  unfold Cache.set_blockNoL2 at h
  simp only [] at h
  repeat' split at h
  all_goals cases h
  all_goals rfl

theorem set_block_recency {c : Cache} {p : String} {n : Nat} {i : Option String}
    {e : CacheBlock} {l2 : Option Cache} {r : SetBlockResult}
    (h : c.set_block p n i e l2 = some r) :
    r.self.recently_used_addrs = c.recently_used_addrs := by
  unfold Cache.set_block at h
  simp only [] at h
  repeat' split at h
  all_goals cases h
  all_goals rfl

/-- The L1 store produced by one `read_refs` loop iteration is either the
marked store itself (hit) or the `set_block` result on the marked store
(miss); in both cases `set_block` leaves the recency list unchanged. -/
theorem process_ref_out_fst {c : Cache} {nbs nwpb : Nat} {policy : String} {ref : Reference}
    {l2 : Option Cache} {out : Cache × Option Cache × CacheStatus}
    (h : c.process_ref nbs nwpb policy ref l2 = some out) :
    out.1 = c.mark_ref_as_last_seen ref ∨
      ∃ sbr : SetBlockResult,
        (c.mark_ref_as_last_seen ref).set_block policy nbs ref.index
            (ref.get_cache_entry nwpb) l2 = some sbr ∧ out.1 = sbr.self := by
  unfold Cache.process_ref at h
  simp only [] at h
  repeat' split at h
  all_goals cases h
  all_goals first
    | (left; rfl)
    | (right; exact ⟨_, by assumption, rfl⟩)

/-- C8: every processed reference, hit or miss, is first marked seen on the
top-level store: after the `read_refs` loop body (`process_ref`) completes
for a reference, the L1 recency list is the previous list with the first
occurrence of the reference's `(index, tag)` pair removed (if present) and
the pair appended, so the pair occupies the last position. -/
theorem claim_c8_mark_seen_moves_pair_to_mru_end (c : Cache) (nbs nwpb : Nat) (policy : String)
    (ref : Reference) (l2 : Option Cache) (out : Cache × Option Cache × CacheStatus)
    (h : c.process_ref nbs nwpb policy ref l2 = some out) :
    out.1.recently_used_addrs =
      (if c.recently_used_addrs.contains (ref.index, ref.tag) then
          c.recently_used_addrs.erase (ref.index, ref.tag)
        else c.recently_used_addrs) ++ [(ref.index, ref.tag)] ∧
      out.1.recently_used_addrs.getLast? = some (ref.index, ref.tag) := by
  have hrec : out.1.recently_used_addrs =
      (c.mark_ref_as_last_seen ref).recently_used_addrs := by
    rcases process_ref_out_fst h with h1 | ⟨sbr, hsb, h1⟩
    · rw [h1]
    · rw [h1, set_block_recency hsb]
  have hmark : (c.mark_ref_as_last_seen ref).recently_used_addrs =
      (if c.recently_used_addrs.contains (ref.index, ref.tag) then
          c.recently_used_addrs.erase (ref.index, ref.tag)
        else c.recently_used_addrs) ++ [(ref.index, ref.tag)] := rfl
  refine ⟨hrec.trans hmark, ?_⟩
  rw [hrec, hmark]
  exact getLast?_snoc _ _

theorem claim_c8_mark_seen_moves_pair_to_mru_end_witness :
    (Cache.init 1 0 false).process_ref 1 1 "lru" (mkReference 1 0 0 1 1) none =
      some ({ store := [("0", [{ tag := some "1", index := none, data := [1] }])],
              recently_used_addrs := [(none, some "1")], is_l2 := false },
            none, CacheStatus.miss) ∧
    ({ store := [("0", [{ tag := some "1", index := none, data := [1] }])],
       recently_used_addrs := [(none, some "1")], is_l2 := false : Cache },
      (none : Option Cache), CacheStatus.miss).1.recently_used_addrs =
      (if ([] : List (Option String × Option String)).contains (none, some "1") then
          ([] : List (Option String × Option String)).erase (none, some "1")
        else []) ++ [((none : Option String), some "1")] ∧
    ({ store := [("0", [{ tag := some "1", index := none, data := [1] }])],
       recently_used_addrs := [(none, some "1")], is_l2 := false : Cache },
      (none : Option Cache), CacheStatus.miss).1.recently_used_addrs.getLast? =
      some ((none : Option String), some "1") :=
  ⟨by decide,
    claim_c8_mark_seen_moves_pair_to_mru_end (Cache.init 1 0 false) 1 1 "lru"
      (mkReference 1 0 0 1 1) none _ (by decide)⟩

/-! ## Claim C5: `read_refs` returns no cycle count -/

theorem read_refs_ret_none {c : Cache} {nbs nwpb : Nat} {policy : String}
    {refs : List Reference} {l2 : Option Cache} {r : ReadRefsResult}
    (h : c.read_refs nbs nwpb policy refs l2 = some r) : r.ret = none := by
  induction refs generalizing c l2 r with
  | nil =>
    unfold Cache.read_refs at h
    cases h; rfl
  | cons ref rest ih =>
    unfold Cache.read_refs at h
    repeat' split at h
    all_goals cases h
    all_goals rename_i hr2
    all_goals simpa using ih hr2

/-- C5: `read_refs` has no return statement, so its Python return value is
`None` for every cache, configuration and reference sequence; no integer
total cycle count is returned. -/
theorem claim_c5_read_refs_returns_no_integer (c : Cache) (nbs nwpb : Nat) (policy : String)
    (refs : List Reference) (l2 : Option Cache) (r : ReadRefsResult)
    (h : c.read_refs nbs nwpb policy refs l2 = some r) : r.ret = none :=
  read_refs_ret_none h

theorem claim_c5_read_refs_returns_no_integer_witness :
    (Cache.init 1 0 false).read_refs 1 1 "lru" [mkReference 1 0 0 1 1] none =
      some { l1 := { store := [("0", [{ tag := some "1", index := none, data := [1] }])],
                     recently_used_addrs := [(none, some "1")], is_l2 := false },
             l2 := none, statuses := [CacheStatus.miss], ret := none } ∧
    ({ l1 := { store := [("0", [{ tag := some "1", index := none, data := [1] }])],
               recently_used_addrs := [(none, some "1")], is_l2 := false },
       l2 := none, statuses := [CacheStatus.miss], ret := none : ReadRefsResult }).ret = none :=
  ⟨by decide,
    claim_c5_read_refs_returns_no_integer (Cache.init 1 0 false) 1 1 "lru"
      [mkReference 1 0 0 1 1] none _ (by decide)⟩

/-! ## Claim C1: `set_block` evicts FIFO, not the recency-selected victim -/

/-- C1: `set_block` evicts `blocks.pop(0)` — the oldest-inserted block —
ignoring the replacement policy and the recency list entirely; the
recency-scan victim selection (`replace_block`, which the claim describes)
exists in the source but is never called.  Concretely: fully-associative L1,
two blocks per set, policy `lru`, addresses 0, 1, 0, 2.  When address 2
misses into the full set, the code evicts the tag-`"00"` block (position 0,
FIFO), leaving tags `["01", "10"]`; scanning the recency list
(least-recently used first) as the claim specifies selects the tag-`"01"`
block — address 1's, the least recently used — so the set would have become
`["00", "10"]`. -/
theorem claim_c1_set_block_evicts_fifo_not_recency_victim :
    (((Cache.init 1 0 false).read_refs 2 1 "lru"
        [mkReference 2 0 0 2 0, mkReference 2 0 0 2 1, mkReference 2 0 0 2 0,
          mkReference 2 0 0 2 2] none).map
      fun r => (dictGet? r.l1.store "0").map fun bs => bs.map CacheBlock.tag) =
      some (some [some "01", some "10"]) ∧
    (((Cache.init 1 0 false).read_refs 2 1 "lru"
        [mkReference 2 0 0 2 0, mkReference 2 0 0 2 1, mkReference 2 0 0 2 0] none).map
      fun r =>
        ((r.l1.mark_ref_as_last_seen (mkReference 2 0 0 2 2)).replace_block
            ((dictGet? (r.l1.mark_ref_as_last_seen (mkReference 2 0 0 2 2)).store "0").getD [])
            "lru" none ((mkReference 2 0 0 2 2).get_cache_entry 1)).map CacheBlock.tag) =
      some [some "00", some "10"] ∧
    ([some "01", some "10"] : List (Option String)) ≠ [some "00", some "10"] := by
  refine ⟨by decide, by decide, by decide⟩

/-! ## Claim C6: the two reported cycle totals -/

/-- C6: both cycle totals reported by `run_simulation` are the return values
of the two `read_refs` calls, and `read_refs` returns `None`; no integer
totals exist, so no `≤` ordering between integer totals is realized. -/
theorem claim_c6_reported_totals_are_not_integers (nbs nwpb cache_size : Nat) (policy : String)
    (nab : Nat) (word_addrs : List Nat) (res : SimResult)
    (h : run_simulation nbs nwpb cache_size policy nab word_addrs = some res) :
    res.total_cycles_with_l2 = none ∧ res.total_cycles_with_l1_only = none := by
  unfold run_simulation at h
  simp only [] at h
  repeat' split at h
  all_goals cases h
  constructor
  · exact read_refs_ret_none (by assumption)
  · exact read_refs_ret_none (by assumption)

/-- The value of `run_simulation 1 1 1 "lru" 1 [1]`, used to instantiate
hypotheses of theorems about `run_simulation` at a concrete input. -/
def simExample : SimResult :=
  { refs := [{ word_addr := 1, bin_addr := "1", tag := some "1", index := none,
               offset := none }],
    pass1 := { l1 := { store := [("0", [{ tag := some "1", index := none, data := [1] }])],
                       recently_used_addrs := [(none, some "1")], is_l2 := false },
               l2 := some { store := [("0", [{ tag := some "1", index := none, data := [1] }])],
                            recently_used_addrs := [], is_l2 := true },
               statuses := [CacheStatus.miss], ret := none },
    pass2 := { l1 := { store := [("0", [{ tag := some "1", index := none, data := [1] }])],
                       recently_used_addrs := [(none, some "1")], is_l2 := false },
               l2 := none, statuses := [CacheStatus.miss], ret := none },
    total_cycles_with_l2 := none, total_cycles_with_l1_only := none }

theorem claim_c6_reported_totals_are_not_integers_witness :
    run_simulation 1 1 1 "lru" 1 [1] = some simExample ∧
      simExample.total_cycles_with_l2 = none ∧ simExample.total_cycles_with_l1_only = none :=
  ⟨by decide, claim_c6_reported_totals_are_not_integers 1 1 1 "lru" 1 [1] simExample (by decide)⟩

/-! ## Claim C7: status writes during one full simulation run -/

theorem read_refs_statuses_length {c : Cache} {nbs nwpb : Nat} {policy : String}
    {refs : List Reference} {l2 : Option Cache} {r : ReadRefsResult}
    (h : c.read_refs nbs nwpb policy refs l2 = some r) : r.statuses.length = refs.length := by
  induction refs generalizing c l2 r with
  | nil =>
    unfold Cache.read_refs at h
    cases h; rfl
  | cons ref rest ih =>
    unfold Cache.read_refs at h
    repeat' split at h
    all_goals cases h
    all_goals rename_i hr2
    all_goals simpa using ih hr2

/-- C7 counterexample: in the run `run_simulation 1 1 1 "lru" 1 [1]`, the
single Reference object's `cache_status` field is written twice — once by
the L1+L2 pass and once more by the L1-only pass over the same list — not
exactly once as the claim states. -/
theorem claim_c7_counterexample_status_written_twice :
    ((run_simulation 1 1 1 "lru" 1 [1]).map fun res => res.statusWrites 0) = some 2 ∧
      (2 : Nat) ≠ 1 := by
  refine ⟨by decide, by decide⟩

/-- C7 amended: during one full `run_simulation` call, each Reference's
`cache_status` is written exactly twice — once when the reference is
processed by the top-level cache of each of the two passes, which share the
same `refs` list — so the second, L1-only pass does overwrite the status
recorded by the first pass (after the first pass's statuses have been
displayed). -/
theorem claim_c7_amended_status_written_once_per_pass (nbs nwpb cache_size : Nat)
    (policy : String) (nab : Nat) (word_addrs : List Nat) (res : SimResult) (i : Nat)
    (h : run_simulation nbs nwpb cache_size policy nab word_addrs = some res)
    (hi : i < res.refs.length) : res.statusWrites i = 2 := by
  unfold run_simulation at h
  simp only [] at h
  repeat' split at h
  all_goals cases h
  rename_i hp1 _o2 _p2 hp2
  have h1 := read_refs_statuses_length hp1
  have h2 := read_refs_statuses_length hp2
  simp only [SimResult.statusWrites] at hi ⊢
  rw [h1, h2]
  rw [if_pos hi]

theorem claim_c7_amended_status_written_once_per_pass_witness :
    run_simulation 1 1 1 "lru" 1 [1] = some simExample ∧ 0 < simExample.refs.length ∧
      simExample.statusWrites 0 = 2 :=
  ⟨by decide, by decide,
    claim_c7_amended_status_written_once_per_pass 1 1 1 "lru" 1 [1] simExample 0 (by decide)
      (by decide)⟩

/-! ## Claim C2: set capacity invariant and eviction write-back counting -/

/-- Every set of the store holds at most `n` block entries. -/
def SetsBounded (c : Cache) (n : Nat) : Prop := ∀ p ∈ c.store, (p.2 : List CacheBlock).length ≤ n

/-- Predicate `SetsBounded` lifted to the optional `l2_cache` argument. -/
def OptSetsBounded : Option Cache → Nat → Prop
  | none, _ => True
  | some c, n => SetsBounded c n

instance (c : Cache) (n : Nat) : Decidable (SetsBounded c n) :=
  inferInstanceAs (Decidable (∀ p ∈ c.store, (p.2 : List CacheBlock).length ≤ n))

instance (oc : Option Cache) (n : Nat) : Decidable (OptSetsBounded oc n) :=
  match oc with
  | none => isTrue trivial
  | some c => inferInstanceAs (Decidable (SetsBounded c n))

theorem setsBounded_dictSet {s : List (String × List CacheBlock)} {k : String}
    {v : List CacheBlock} {n : Nat} (hs : ∀ p ∈ s, (p.2 : List CacheBlock).length ≤ n)
    (hv : v.length ≤ n) : ∀ p ∈ dictSet s k v, (p.2 : List CacheBlock).length ≤ n := by
  intro p hp
  rcases mem_dictSet hp with hmem | heq
  · exact hs p hmem
  · rw [heq]; exact hv

theorem set_blockNoL2_bounded {c c' : Cache} {p : String} {n num_blocks_per_set : Nat}
    {i : Option String} {e : CacheBlock}
    (h : c.set_blockNoL2 p num_blocks_per_set i e = some c')
    (hb : SetsBounded c num_blocks_per_set) (hn : n = num_blocks_per_set) :
    SetsBounded c' num_blocks_per_set := by
  subst hn
  unfold Cache.set_blockNoL2 at h
  simp only [] at h
  split at h
  · cases h
  · rename_i blocks hget
    have hblen : blocks.length ≤ n := hb _ (dictGet?_mem hget)
    split at h
    · rename_i hlen
      split at h
      · cases h
      · rename_i ev rest
        cases h
        refine setsBounded_dictSet hb ?_
        simp only [List.length_append, List.length_cons, List.length_nil]
        simp only [List.length_cons] at hlen
        omega
    · rename_i hlen
      cases h
      refine setsBounded_dictSet hb ?_
      simp only [List.length_append, List.length_cons, List.length_nil]
      omega

theorem set_block_bounded {c : Cache} {p : String} {n : Nat} {i : Option String}
    {e : CacheBlock} {l2 : Option Cache} {r : SetBlockResult}
    (h : c.set_block p n i e l2 = some r) (hb : SetsBounded c n) (hl2 : OptSetsBounded l2 n) :
    SetsBounded r.self n ∧ OptSetsBounded r.l2 n := by
  unfold Cache.set_block at h
  simp only [] at h
  split at h
  · cases h
  · rename_i blocks hget
    have hblen : blocks.length ≤ n := hb _ (dictGet?_mem hget)
    split at h
    · rename_i hlen
      split at h
      · cases h
      · rename_i ev rest
        have hself : SetsBounded
            { c with store := dictSet c.store (keyOf i) (rest ++ [e]) } n := by
          refine setsBounded_dictSet hb ?_
          simp only [List.length_append, List.length_cons, List.length_nil]
          simp only [List.length_cons] at hlen
          omega
        split at h
        · cases h
          exact ⟨hself, trivial⟩
        · rename_i l2v
          split at h
          · split at h
            · cases h
            · rename_i l2a hwb
              cases h
              exact ⟨hself, set_blockNoL2_bounded hwb hl2 rfl⟩
          · cases h
            exact ⟨hself, hl2⟩
    · rename_i hlen
      cases h
      refine ⟨setsBounded_dictSet hb ?_, hl2⟩
      simp only [List.length_append, List.length_cons, List.length_nil]
      omega

/-- A sequence of `set_block` calls with a fixed `num_blocks_per_set`,
threading the store and the attached next level through each call, as the
spec's "any sequence of `insert` calls" quantifies. -/
def applyInserts (c : Cache) (l2 : Option Cache) (policy : String) (num_blocks_per_set : Nat) :
    List (Option String × CacheBlock) → Option (Cache × Option Cache)
  | [] => some (c, l2)
  | (i, e) :: rest =>
    match c.set_block policy num_blocks_per_set i e l2 with
    | none => none
    | some r => applyInserts r.self r.l2 policy num_blocks_per_set rest

theorem applyInserts_bounded {c : Cache} {l2 : Option Cache} {policy : String} {n : Nat}
    {reqs : List (Option String × CacheBlock)} {out : Cache × Option Cache}
    (h : applyInserts c l2 policy n reqs = some out) (hb : SetsBounded c n)
    (hl2 : OptSetsBounded l2 n) : SetsBounded out.1 n ∧ OptSetsBounded out.2 n := by
  induction reqs generalizing c l2 with
  | nil =>
    unfold applyInserts at h
    cases h
    exact ⟨hb, hl2⟩
  | cons q rest ih =>
    obtain ⟨i, e⟩ := q
    unfold applyInserts at h
    split at h
    · cases h
    · rename_i r hsb
      obtain ⟨hb', hl2'⟩ := set_block_bounded hsb hb hl2
      exact ih h hb' hl2'

/-- C2: (1) starting from a store (and optional next level) whose sets hold
at most `blocksPerSet` entries, after any sequence of `set_block` calls with
that fixed `blocksPerSet` completes, every set of the store and of the next
level again holds at most `blocksPerSet` entries — so this holds after each
single call of the sequence; (2) a `set_block` call on a full set of an L1
store (not `is_l2`) with a truthy next level attached performs exactly one
eviction write-back; (3) a `set_block` call on a set below capacity performs
no write-back. -/
theorem claim_c2_capacity_and_writeback_counts (policy : String) (n : Nat)
    (reqs : List (Option String × CacheBlock)) (c : Cache) (l2 : Option Cache)
    (out : Cache × Option Cache) (c2 : Cache) (l22 : Option Cache) (i2 : Option String)
    (e2 : CacheBlock) (r2 : SetBlockResult) (bs2 : List CacheBlock) :
    (applyInserts c l2 policy n reqs = some out → SetsBounded c n → OptSetsBounded l2 n →
      SetsBounded out.1 n ∧ OptSetsBounded out.2 n) ∧
    (c2.is_l2 = false → pyTruthy l22 = true → dictGet? c2.store (keyOf i2) = some bs2 →
      bs2.length = n → c2.set_block policy n i2 e2 l22 = some r2 → r2.writebacks = 1) ∧
    (dictGet? c2.store (keyOf i2) = some bs2 → bs2.length < n →
      c2.set_block policy n i2 e2 l22 = some r2 → r2.writebacks = 0) := by
  refine ⟨fun h hb hl2 => applyInserts_bounded h hb hl2, ?_, ?_⟩
  · intro hisl2 htr hget hlen h
    unfold Cache.set_block at h
    simp only [] at h
    simp only [hget] at h
    rw [if_pos hlen] at h
    match l22, htr with
    | some l2v, htr =>
      rw [hisl2] at h
      simp only [htr, Bool.not_false, Bool.and_self, if_true] at h
      split at h
      · cases h
      · split at h
        · cases h
        · rename_i l2a hwb
          cases h
          rfl
  · intro hget hlen h
    unfold Cache.set_block at h
    simp only [] at h
    simp only [hget] at h
    rw [if_neg (by omega)] at h
    cases h
    rfl

/-- Concrete instantiation data for the C2 witness: two fully-associative
single-block inserts, the second of which overflows and writes back. -/
def c2reqs : List (Option String × CacheBlock) :=
  [(none, { tag := some "0", index := none, data := [0] }),
    (none, { tag := some "1", index := none, data := [1] })]

def c2outPair : Cache × Option Cache :=
  ({ store := [("0", [{ tag := some "1", index := none, data := [1] }])],
     recently_used_addrs := [], is_l2 := false },
   some { store := [("0", [{ tag := some "0", index := none, data := [0] }])],
          recently_used_addrs := [], is_l2 := true })

def c2midL1 : Cache :=
  { store := [("0", [{ tag := some "0", index := none, data := [0] }])],
    recently_used_addrs := [], is_l2 := false }

def c2wbRes : SetBlockResult :=
  { self := { store := [("0", [{ tag := some "1", index := none, data := [1] }])],
              recently_used_addrs := [], is_l2 := false },
    l2 := some { store := [("0", [{ tag := some "0", index := none, data := [0] }])],
                 recently_used_addrs := [], is_l2 := true },
    writebacks := 1 }

def c2fillRes : SetBlockResult :=
  { self := c2midL1, l2 := some (Cache.init 1 0 true), writebacks := 0 }

theorem claim_c2_capacity_and_writeback_counts_witness :
    (SetsBounded c2outPair.1 1 ∧ OptSetsBounded c2outPair.2 1) ∧
      c2wbRes.writebacks = 1 ∧ c2fillRes.writebacks = 0 := by
  have base := claim_c2_capacity_and_writeback_counts "lru" 1 c2reqs (Cache.init 1 0 false)
    (some (Cache.init 1 0 true)) c2outPair c2midL1 (some (Cache.init 1 0 true)) none
    { tag := some "1", index := none, data := [1] } c2wbRes
    [{ tag := some "0", index := none, data := [0] }]
  have base2 := claim_c2_capacity_and_writeback_counts "lru" 1 c2reqs (Cache.init 1 0 false)
    (some (Cache.init 1 0 true)) c2outPair (Cache.init 1 0 false) (some (Cache.init 1 0 true))
    none { tag := some "0", index := none, data := [0] } c2fillRes []
  refine ⟨base.1 (by decide) (by decide) (by decide), ?_, ?_⟩
  · exact base.2.1 (by decide) (by decide) (by decide) (by decide) (by decide)
  · exact base2.2.2 (by decide) (by decide) (by decide)


/-! ## Claim C4: eviction write-back retrievability with `blocksPerSet = 1` -/

/-- C4 counterexample: direct-mapped (`blocksPerSet = 1`) L1 with L2
attached, two sets, addresses 0 then 2 (both map to set `"0"`, tags `"0"`
and `"1"`).  Processing address 2 misses in L1 and evicts block X
(tag `"0"`, index `"0"`); the write-back does place X in L2, but the
subsequent direct L2 fill-on-miss for address 2 immediately evicts X from
the same single-entry L2 set, so right after the reference is processed
`get_block` on L2 at X's index and tag returns `None`, not X's entry as the
claim states. -/
theorem claim_c4_counterexample_writeback_not_retrievable :
    (((Cache.init 2 1 false).read_refs 1 1 "lru" [mkReference 2 0 1 1 0, mkReference 2 0 1 1 2]
        (some (Cache.init 2 1 true))).map
      fun r => r.l2.map fun l2c => l2c.get_block (some "0") (some "0")) = some (some none) ∧
    (((Cache.init 2 1 false).read_refs 1 1 "lru" [mkReference 2 0 1 1 0, mkReference 2 0 1 1 2]
        (some (Cache.init 2 1 true))).map
      fun r => (dictGet? r.l1.store "0").map fun bs => bs.map CacheBlock.tag) =
      some (some [some "1"]) ∧
    some ((mkReference 2 0 1 1 0).get_cache_entry 1) ≠ (none : Option CacheBlock) := by
  refine ⟨by decide, by decide, by decide⟩

/-- C4 amended: with an L2 attached and `blocksPerSet = 1`, an L1 insert
that evicts block X does write X back into L2: immediately after the L1
insert (`set_block`) call completes — before `read_refs` performs the
direct L2 fill for the missed reference, which then replaces X — X's entry
is the sole occupant of the L2 set at X's key, and `get_block` on L2 at X's
index and tag returns X's entry exactly when X's index is defined (`some`);
for an undefined (`None`) index, `get_block` returns `None` even though X
is present in the synthetic `"0"` set, by the `None`-index asymmetry of
C10. -/
theorem claim_c4_amended_evicted_block_in_l2_after_insert (c l2 : Cache) (policy : String)
    (i : Option String) (e X : CacheBlock) (bs2 : List CacheBlock)
    (r : SetBlockResult) (hisl2 : c.is_l2 = false)
    (hfull : dictGet? c.store (keyOf i) = some [X])
    (hl2bs : dictGet? l2.store (keyOf X.index) = some bs2) (hlen : bs2.length ≤ 1)
    (h : c.set_block policy 1 i e (some l2) = some r) :
    ∃ l2a, r.l2 = some l2a ∧ dictGet? l2a.store (keyOf X.index) = some [X] ∧
      l2a.get_block X.index X.tag =
        match X.index with
        | some _ => some X
        | none => none := by
  have hne : l2.store ≠ [] := by
    intro hnil
    rw [hnil] at hl2bs
    simp [dictGet?] at hl2bs
  have htr : pyTruthy (some l2) = true := by
    cases hs : l2.store with
    | nil => exact absurd hs hne
    | cons a as => simp [pyTruthy, hs]
  unfold Cache.set_block at h
  simp only [] at h
  simp only [hfull] at h
  rw [if_pos (by simp)] at h
  rw [hisl2] at h
  simp only [htr, Bool.not_false, Bool.and_self, if_true] at h
  unfold Cache.set_blockNoL2 at h
  simp only [hl2bs] at h
  rcases bs2 with _ | ⟨b, bs2t⟩
  · rw [if_neg (by simp)] at h
    simp only [] at h
    cases h
    refine ⟨_, rfl, dictGet?_dictSet_self _ _ _, ?_⟩
    cases hXi : X.index with
    | none => simp [Cache.get_block]
    | some s => simp [Cache.get_block, keyOf, dictGet?_dictSet_self]
  · have hnil : bs2t = [] := by
      simp only [List.length_cons] at hlen
      exact List.length_eq_zero.mp (by omega)
    subst hnil
    rw [if_pos (by simp)] at h
    simp only [] at h
    cases h
    refine ⟨_, rfl, dictGet?_dictSet_self _ _ _, ?_⟩
    cases hXi : X.index with
    | none => simp [Cache.get_block]
    | some s => simp [Cache.get_block, keyOf, dictGet?_dictSet_self]

/-- Concrete data for the C4 witness: the state right before address 2 of
the counterexample run is inserted. -/
def c4X : CacheBlock := { tag := some "0", index := some "0", data := [0] }

def c4e : CacheBlock := { tag := some "1", index := some "0", data := [2] }

def c4L1 : Cache := { store := [("0", [c4X]), ("1", [])], recently_used_addrs := [],
                      is_l2 := false }

def c4L2 : Cache := { store := [("0", [c4X]), ("1", [])], recently_used_addrs := [],
                      is_l2 := true }

def c4r : SetBlockResult :=
  { self := { store := [("0", [c4e]), ("1", [])], recently_used_addrs := [], is_l2 := false },
    l2 := some c4L2, writebacks := 1 }

theorem claim_c4_amended_evicted_block_in_l2_after_insert_witness :
    c4L1.is_l2 = false ∧ dictGet? c4L1.store (keyOf (some "0")) = some [c4X] ∧
      dictGet? c4L2.store (keyOf c4X.index) = some [c4X] ∧
      ([c4X] : List CacheBlock).length ≤ 1 ∧
      c4L1.set_block "lru" 1 (some "0") c4e (some c4L2) = some c4r ∧
      ∃ l2a, c4r.l2 = some l2a ∧ dictGet? l2a.store (keyOf c4X.index) = some [c4X] ∧
        l2a.get_block c4X.index c4X.tag =
          match c4X.index with
          | some _ => some c4X
          | none => none :=
  ⟨rfl, by decide, by decide, by decide, by decide,
    claim_c4_amended_evicted_block_in_l2_after_insert c4L1 c4L2 "lru" (some "0") c4e c4X
      [c4X] c4r rfl (by decide) (by decide) (by decide) (by decide)⟩

/-! ## Claim C3: tag uniqueness within every set

`set_block` never inspects tags, and the L2 write-back inserts the evicted
block with no duplicate check, so tag uniqueness of the L2 sets is not
local: it follows from a positional invariant relating, per set key, the L1
block queue (oldest first) and the L2 block queue — every tag present in
both queues sits at most as deep (from the oldest end) in L2 as in L1, so
when the write-back pops the oldest L2 block just before re-inserting the
evicted L1 block, any L2 copy of that block is exactly the popped one. -/

/-- Position of the first occurrence of `x` (the length if `x` is absent). -/
def idxIn {α : Type} [DecidableEq α] (x : α) : List α → Nat
  | [] => 0
  | y :: ys => if y = x then 0 else idxIn x ys + 1

theorem idxIn_cons_self {α : Type} [DecidableEq α] (x : α) (l : List α) :
    idxIn x (x :: l) = 0 := by simp [idxIn]

theorem idxIn_cons_ne {α : Type} [DecidableEq α] {x y : α} (l : List α) (h : y ≠ x) :
    idxIn x (y :: l) = idxIn x l + 1 := by simp [idxIn, h]

theorem idxIn_eq_zero_head {α : Type} [DecidableEq α] {x y : α} {l : List α}
    (h : idxIn x (y :: l) = 0) : y = x := by
  by_contra hne
  rw [idxIn_cons_ne l hne] at h
  exact Nat.succ_ne_zero _ h

theorem idxIn_lt_length {α : Type} [DecidableEq α] {x : α} {l : List α} (h : x ∈ l) :
    idxIn x l < l.length := by
  induction l with
  | nil => cases h
  | cons y ys ih =>
    by_cases hy : y = x
    · subst hy
      rw [idxIn_cons_self]
      simp
    · rw [idxIn_cons_ne ys hy]
      have hmem : x ∈ ys := by
        rcases List.mem_cons.mp h with h1 | h1
        · exact absurd h1.symm hy
        · exact h1
      simpa using ih hmem

theorem idxIn_append_left {α : Type} [DecidableEq α] {x : α} {l : List α} (l' : List α)
    (h : x ∈ l) : idxIn x (l ++ l') = idxIn x l := by
  induction l with
  | nil => cases h
  | cons y ys ih =>
    by_cases hy : y = x
    · subst hy
      simp [idxIn_cons_self]
    · have hmem : x ∈ ys := by
        rcases List.mem_cons.mp h with h1 | h1
        · exact absurd h1.symm hy
        · exact h1
      rw [List.cons_append, idxIn_cons_ne _ hy, idxIn_cons_ne _ hy, ih hmem]

theorem idxIn_append_of_notMem {α : Type} [DecidableEq α] {x : α} {l : List α} (l' : List α)
    (h : x ∉ l) : idxIn x (l ++ l') = l.length + idxIn x l' := by
  induction l with
  | nil => simp
  | cons y ys ih =>
    have hy : y ≠ x := fun he => h (he ▸ List.mem_cons_self _ _)
    have hmem : x ∉ ys := fun hm => h (List.mem_cons_of_mem _ hm)
    rw [List.cons_append, idxIn_cons_ne _ hy, ih hmem]
    simp [Nat.add_right_comm]

theorem nodup_snoc {α : Type} (l : List α) (a : α) (h1 : l.Nodup) (h2 : a ∉ l) :
    (l ++ [a]).Nodup := by
  rw [List.nodup_append]
  refine ⟨h1, List.nodup_singleton a, ?_⟩
  intro x hx hxa
  rw [List.mem_singleton] at hxa
  subst hxa
  exact h2 hx

/-- The per-set-key invariant between the L1 tag queue `q1` and the L2 tag
queue `q2` (both oldest first, capacity `n`): both are duplicate-free and
capacity-bounded; before the L1 set is full the two queues are identical
(every L1 miss also direct-fills L2); once the L1 set is full the L2 set is
full too; and every tag in both queues is at most as deep in `q2` as in
`q1`. -/
def qInv (n : Nat) (q1 q2 : List (Option String)) : Prop :=
  q1.Nodup ∧ q2.Nodup ∧ q1.length ≤ n ∧ q2.length ≤ n ∧
    (q1.length < n → q1 = q2) ∧ (q1.length = n → q2.length = n) ∧
    ∀ x, x ∈ q1 → x ∈ q2 → idxIn x q2 ≤ idxIn x q1

theorem qInv_nil (n : Nat) : qInv n [] [] := by
  refine ⟨List.nodup_nil, List.nodup_nil, by simp, by simp, fun _ => rfl, fun h => h, ?_⟩
  intro x hx
  cases hx

/-- Invariant step, lockstep phase: the target L1 set is below capacity, so
the L1 and L2 sets are equal, the miss appends the new tag to both, and the
invariant is preserved. -/
theorem qInv_lockstep {n : Nat} {q1 q2 : List (Option String)} {t : Option String}
    (hq : qInv n q1 q2) (ht : t ∉ q1) (hlen : q1.length ≠ n) :
    q2 = q1 ∧ q2.length ≠ n ∧ t ∉ q2 ∧ qInv n (q1 ++ [t]) (q2 ++ [t]) := by
  obtain ⟨h1, h2, hl1, hl2, hls, hfull, hpos⟩ := hq
  have hlt : q1.length < n := lt_of_le_of_ne hl1 hlen
  have heq : q1 = q2 := hls hlt
  subst heq
  refine ⟨rfl, hlen, ht, nodup_snoc _ _ h1 ht, nodup_snoc _ _ h1 ht, ?_, ?_, fun _ => rfl,
    fun h => h, fun x _ _ => le_refl _⟩
  · simp; omega
  · simp; omega

/-- Invariant step, eviction phase: the target L1 set is full, holding
`X :: r1`; the L2 set is then full too, holding `Y :: r2`.  The write-back
pops `Y` and appends the evicted `X` (creating no duplicate, since any L2
copy of `X` is exactly `Y`); the direct fill then either is skipped (tag
already in L2) or pops the oldest remaining L2 block and appends the new
tag.  Both outcomes preserve the invariant. -/
theorem qInv_evict {n : Nat} {X Y : Option String} {r1 r2 : List (Option String)}
    {t : Option String} (hq : qInv n (X :: r1) (Y :: r2)) (ht : t ∉ X :: r1)
    (hlen : (X :: r1).length = n) :
    (Y :: r2).length = n ∧
      (t ∈ r2 ++ [X] → qInv n (r1 ++ [t]) (r2 ++ [X])) ∧
      (t ∉ r2 ++ [X] → qInv n (r1 ++ [t]) ((r2 ++ [X]).tail ++ [t])) := by
  obtain ⟨h1, h2, hl1, hl2, hls, hfull, hpos⟩ := hq
  have hn1 : r1.length + 1 = n := by simpa using hlen
  have hlen2 : (Y :: r2).length = n := hfull hlen
  have hn2 : r2.length + 1 = n := by simpa using hlen2
  obtain ⟨hX_r1, hr1⟩ := List.nodup_cons.mp h1
  obtain ⟨hY_r2, hr2⟩ := List.nodup_cons.mp h2
  have ht1 : t ≠ X := fun he => ht (he ▸ List.mem_cons_self _ _)
  have ht2 : t ∉ r1 := fun hm => ht (List.mem_cons_of_mem _ hm)
  have hXfront : X ∈ Y :: r2 → Y = X := by
    intro hmem
    have hle := hpos X (List.mem_cons_self _ _) hmem
    rw [idxIn_cons_self] at hle
    exact idxIn_eq_zero_head (Nat.le_zero.mp hle)
  have hXr2 : X ∉ r2 := by
    intro hmem
    have hY : Y = X := hXfront (List.mem_cons_of_mem _ hmem)
    subst hY
    exact hY_r2 hmem
  have hnodup1 : (r1 ++ [t]).Nodup := nodup_snoc _ _ hr1 ht2
  refine ⟨hlen2, ?_, ?_⟩
  · -- direct fill skipped: t already in the post-write-back L2 set
    intro htin
    refine ⟨hnodup1, nodup_snoc _ _ hr2 hXr2, by simp; omega, by simp; omega,
      fun hc => absurd hc (by simp; omega), fun _ => by simp; omega, ?_⟩
    intro x hx1 hx2
    rcases List.mem_append.mp hx1 with hxr1 | hxt
    · have hxX : x ≠ X := fun he => hX_r1 (he ▸ hxr1)
      have hxr2 : x ∈ r2 := by
        rcases List.mem_append.mp hx2 with hm | hm
        · exact hm
        · exact absurd (List.mem_singleton.mp hm) hxX
      have hxY : x ≠ Y := fun he => hY_r2 (he ▸ hxr2)
      have hp := hpos x (List.mem_cons_of_mem _ hxr1) (List.mem_cons_of_mem _ hxr2)
      rw [idxIn_cons_ne _ (Ne.symm hxY), idxIn_cons_ne _ (Ne.symm hxX)] at hp
      rw [idxIn_append_left _ hxr2, idxIn_append_left _ hxr1]
      omega
    · have hxeq : x = t := List.mem_singleton.mp hxt
      subst hxeq
      have hlt : idxIn x (r2 ++ [X]) < (r2 ++ [X]).length := idxIn_lt_length hx2
      rw [idxIn_append_of_notMem _ ht2]
      simp only [List.length_append, List.length_cons, List.length_nil] at hlt ⊢
      have h0 : idxIn x [x] = 0 := idxIn_cons_self x []
      rw [h0]
      omega
  · -- direct fill performed: pop the oldest remaining L2 block, append t
    intro htout
    have htX : t ∉ r2 := fun hm => htout (List.mem_append.mpr (Or.inl hm))
    cases r2 with
    | nil =>
      have hn : n = 1 := by
        simp only [List.length_nil] at hn2
        omega
      have hr1nil : r1 = [] := List.length_eq_zero.mp (by omega)
      subst hr1nil
      show qInv n [t] [t]
      refine ⟨List.nodup_singleton t, List.nodup_singleton t, by simp [hn], by simp [hn],
        fun hc => absurd hc (by simp [hn]), fun h => h, fun x _ _ => le_refl _⟩
    | cons Z r2t =>
      obtain ⟨hZ_r2t, hr2t⟩ := List.nodup_cons.mp hr2
      have hXr2t : X ∉ r2t := fun hm => hXr2 (List.mem_cons_of_mem _ hm)
      have htZ : t ≠ Z := fun he => htX (he ▸ List.mem_cons_self _ _)
      have htr2t : t ∉ r2t := fun hm => htX (List.mem_cons_of_mem _ hm)
      have hshape : ((Z :: r2t ++ [X]).tail ++ [t]) = (r2t ++ [X]) ++ [t] := rfl
      rw [hshape]
      have htnotin : t ∉ r2t ++ [X] := by
        intro hm
        rcases List.mem_append.mp hm with hm1 | hm1
        · exact htr2t hm1
        · exact ht1 (List.mem_singleton.mp hm1)
      refine ⟨hnodup1, nodup_snoc _ _ (nodup_snoc _ _ hr2t hXr2t) htnotin,
        by simp; omega, by simp at hn2 ⊢; omega,
        fun hc => absurd hc (by simp; omega), fun _ => by simp at hn2 ⊢; omega, ?_⟩
      intro x hx1 hx2
      rcases List.mem_append.mp hx1 with hxr1 | hxt
      · have hxX : x ≠ X := fun he => hX_r1 (he ▸ hxr1)
        have hxt' : x ≠ t := fun he => ht2 (he ▸ hxr1)
        have hxr2t : x ∈ r2t := by
          rcases List.mem_append.mp hx2 with hm | hm
          · rcases List.mem_append.mp hm with hm1 | hm1
            · exact hm1
            · exact absurd (List.mem_singleton.mp hm1) hxX
          · exact absurd (List.mem_singleton.mp hm) hxt'
        have hxZ : x ≠ Z := fun he => hZ_r2t (he ▸ hxr2t)
        have hxY : x ≠ Y := fun he => hY_r2 (he ▸ List.mem_cons_of_mem _ hxr2t)
        have hp := hpos x (List.mem_cons_of_mem _ hxr1)
          (List.mem_cons_of_mem _ (List.mem_cons_of_mem _ hxr2t))
        rw [idxIn_cons_ne _ (Ne.symm hxY), idxIn_cons_ne _ (Ne.symm hxZ),
          idxIn_cons_ne _ (Ne.symm hxX)] at hp
        rw [idxIn_append_left _ (List.mem_append.mpr (Or.inl hxr2t)),
          idxIn_append_left _ hxr2t, idxIn_append_left _ hxr1]
        omega
      · have hxeq : x = t := List.mem_singleton.mp hxt
        subst hxeq
        have hlt : idxIn x ((r2t ++ [X]) ++ [x]) < ((r2t ++ [X]) ++ [x]).length :=
          idxIn_lt_length hx2
        rw [idxIn_append_of_notMem _ ht2]
        have h0 : idxIn x [x] = 0 := idxIn_cons_self x []
        rw [h0]
        simp only [List.length_append, List.length_cons, List.length_nil] at hlt ⊢
        simp only [List.length_cons] at hn2
        omega

/-! Lifting the queue invariant to the stores. -/

/-- The tag queue of a block list. -/
def tagsOf (bs : List CacheBlock) : List (Option String) := bs.map CacheBlock.tag

/-- Every block of every set carries the index it is keyed under (write-backs
re-insert an evicted block at `evicted_entry["index"]`, so this ties the
write-back to the evicted block's own set). -/
def BlocksIndexed (c : Cache) : Prop := ∀ p ∈ c.store, ∀ b ∈ p.2, keyOf b.index = p.1

/-- The global invariant of the L1/L2 store pair maintained by `read_refs`:
the L1 store is not flagged as L2, the L2 store is truthy (non-empty key
set), blocks are keyed consistently, and per key the two tag queues satisfy
`qInv`; sets whose key exists in only one store never change and stay
duplicate-free. -/
def GInv (n : Nat) (l1 l2 : Cache) : Prop :=
  l1.is_l2 = false ∧ l2.store ≠ [] ∧ BlocksIndexed l1 ∧ BlocksIndexed l2 ∧
    (∀ k bs1 bs2, dictGet? l1.store k = some bs1 → dictGet? l2.store k = some bs2 →
      qInv n (tagsOf bs1) (tagsOf bs2)) ∧
    (∀ k bs1, dictGet? l1.store k = some bs1 → dictGet? l2.store k = none →
      (tagsOf bs1).Nodup) ∧
    (∀ k bs2, dictGet? l2.store k = some bs2 → dictGet? l1.store k = none →
      (tagsOf bs2).Nodup)

theorem dictSet_dictSet (s : List (String × List CacheBlock)) (k : String)
    (v v' : List CacheBlock) : dictSet (dictSet s k v) k v' = dictSet s k v' := by
  induction s with
  | nil => simp [dictSet]
  | cons p rest ih =>
    obtain ⟨k2, v2⟩ := p
    by_cases hk : k2 = k
    · simp [dictSet, hk]
    · simp [dictSet, hk, ih]

theorem is_hit_of_get {c : Cache} {i : Option String} {tg : Option String}
    {bs : List CacheBlock} (hbs : dictGet? c.store (keyOf i) = some bs) :
    c.is_hit i tg = some (bs.any fun b => b.tag = tg) := by
  unfold Cache.is_hit
  cases i with
  | none => simp only [keyOf] at hbs; simp only []; rw [hbs]
  | some s => simp only [keyOf] at hbs; simp only []; rw [hbs]

theorem is_hit_absent {c : Cache} {s : String} {tg : Option String}
    (hbs : dictGet? c.store s = none) : c.is_hit (some s) tg = some false := by
  unfold Cache.is_hit
  simp only []
  rw [hbs]

theorem is_hit_none_absent {c : Cache} {tg : Option String}
    (hbs : dictGet? c.store "0" = none) : c.is_hit none tg = none := by
  unfold Cache.is_hit
  simp only []
  rw [hbs]

theorem any_tag_false_iff (bs : List CacheBlock) (tg : Option String) :
    (bs.any fun b => b.tag = tg) = false ↔ tg ∉ tagsOf bs := by
  rw [← Bool.not_eq_true, List.any_eq_true]
  simp [tagsOf, eq_comm]

theorem any_tag_true_iff (bs : List CacheBlock) (tg : Option String) :
    (bs.any fun b => b.tag = tg) = true ↔ tg ∈ tagsOf bs := by
  rw [List.any_eq_true]
  simp [tagsOf, eq_comm]

theorem set_block_none_of_get_none {c : Cache} {policy : String} {n : Nat} {i : Option String}
    {e : CacheBlock} {l2opt : Option Cache} (hget : dictGet? c.store (keyOf i) = none) :
    c.set_block policy n i e l2opt = none := by
  unfold Cache.set_block
  simp only [hget]

theorem set_blockNoL2_none_of_get_none {c : Cache} {policy : String} {n : Nat}
    {i : Option String} {e : CacheBlock} (hget : dictGet? c.store (keyOf i) = none) :
    c.set_blockNoL2 policy n i e = none := by
  unfold Cache.set_blockNoL2
  simp only [hget]

theorem set_blockNoL2_char {c c' : Cache} {policy : String} {n : Nat} {i : Option String}
    {e : CacheBlock} {bs : List CacheBlock} (hget : dictGet? c.store (keyOf i) = some bs)
    (h : c.set_blockNoL2 policy n i e = some c') :
    (bs.length ≠ n ∧ c' = { c with store := dictSet c.store (keyOf i) (bs ++ [e]) }) ∨
      (∃ evB rest, bs = evB :: rest ∧ bs.length = n ∧
        c' = { c with store := dictSet c.store (keyOf i) (rest ++ [e]) }) := by
  unfold Cache.set_blockNoL2 at h
  simp only [hget] at h
  split at h
  · rename_i hlen
    cases bs with
    | nil => cases h
    | cons evB rest =>
      cases h
      exact Or.inr ⟨evB, rest, rfl, hlen, rfl⟩
  · rename_i hlen
    cases h
    exact Or.inl ⟨hlen, rfl⟩

theorem set_block_someArg_char {c l2 : Cache} {policy : String} {n : Nat} {i : Option String}
    {e : CacheBlock} {sbr : SetBlockResult} {bs : List CacheBlock}
    (hget : dictGet? c.store (keyOf i) = some bs)
    (h : c.set_block policy n i e (some l2) = some sbr) :
    (bs.length ≠ n ∧
      sbr = { self := { c with store := dictSet c.store (keyOf i) (bs ++ [e]) },
              l2 := some l2, writebacks := 0 }) ∨
      (∃ evB rest, bs = evB :: rest ∧ bs.length = n ∧
        (((pyTruthy (some l2) && !c.is_l2) = false ∧
          sbr = { self := { c with store := dictSet c.store (keyOf i) (rest ++ [e]) },
                  l2 := some l2, writebacks := 0 }) ∨
        ((pyTruthy (some l2) && !c.is_l2) = true ∧
          ∃ l2a, l2.set_blockNoL2 policy n evB.index evB = some l2a ∧
            sbr = { self := { c with store := dictSet c.store (keyOf i) (rest ++ [e]) },
                    l2 := some l2a, writebacks := 1 }))) := by
  unfold Cache.set_block at h
  simp only [hget] at h
  split at h
  · rename_i hlen
    cases bs with
    | nil => cases h
    | cons evB rest =>
      simp only [] at h
      split at h
      · rename_i hcond
        split at h
        · cases h
        · rename_i l2a hwb
          cases h
          exact Or.inr ⟨evB, rest, rfl, hlen, Or.inr ⟨hcond, l2a, hwb, rfl⟩⟩
      · rename_i hcond
        cases h
        exact Or.inr ⟨evB, rest, rfl, hlen,
          Or.inl ⟨Bool.not_eq_true _ ▸ Bool.of_not_eq_true hcond, rfl⟩⟩
  · rename_i hlen
    cases h
    exact Or.inl ⟨hlen, rfl⟩

theorem set_block_noneArg_char {c : Cache} {policy : String} {n : Nat} {i : Option String}
    {e : CacheBlock} {sbr : SetBlockResult} {bs : List CacheBlock}
    (hget : dictGet? c.store (keyOf i) = some bs)
    (h : c.set_block policy n i e none = some sbr) :
    (bs.length ≠ n ∧
      sbr = { self := { c with store := dictSet c.store (keyOf i) (bs ++ [e]) },
              l2 := none, writebacks := 0 }) ∨
      (∃ evB rest, bs = evB :: rest ∧ bs.length = n ∧
        sbr = { self := { c with store := dictSet c.store (keyOf i) (rest ++ [e]) },
                l2 := none, writebacks := 0 }) := by
  unfold Cache.set_block at h
  simp only [hget] at h
  split at h
  · rename_i hlen
    cases bs with
    | nil => cases h
    | cons evB rest =>
      simp only [] at h
      cases h
      exact Or.inr ⟨evB, rest, rfl, hlen, rfl⟩
  · rename_i hlen
    cases h
    exact Or.inl ⟨hlen, rfl⟩

/-- Updating the same key in both stores with queues that satisfy `qInv`
preserves the global invariant (all other sets are untouched). -/
theorem GInv_update {n : Nat} {l1 l2 l1' l2' : Cache} (k : String) (v1 v2 : List CacheBlock)
    (hInv : GInv n l1 l2) (h1 : l1'.store = dictSet l1.store k v1)
    (h2 : l2'.store = dictSet l2.store k v2) (hisl2 : l1'.is_l2 = false)
    (hv1 : ∀ b ∈ v1, keyOf b.index = k) (hv2 : ∀ b ∈ v2, keyOf b.index = k)
    (hq : qInv n (tagsOf v1) (tagsOf v2)) : GInv n l1' l2' := by
  obtain ⟨_, _, hB1, hB2, h5, h6, h7⟩ := hInv
  refine ⟨hisl2, ?_, ?_, ?_, ?_, ?_, ?_⟩
  · rw [h2]; exact dictSet_ne_nil _ _ _
  · intro p hp
    rw [h1] at hp
    rcases mem_dictSet hp with hmem | heq
    · exact hB1 p hmem
    · subst heq; exact hv1
  · intro p hp
    rw [h2] at hp
    rcases mem_dictSet hp with hmem | heq
    · exact hB2 p hmem
    · subst heq; exact hv2
  · intro k' b1 b2 hg1 hg2
    rw [h1] at hg1
    rw [h2] at hg2
    by_cases hk : k' = k
    · subst hk
      rw [dictGet?_dictSet_self] at hg1 hg2
      cases hg1; cases hg2
      exact hq
    · rw [dictGet?_dictSet_ne _ _ hk] at hg1
      rw [dictGet?_dictSet_ne _ _ hk] at hg2
      exact h5 k' b1 b2 hg1 hg2
  · intro k' b1 hg1 hg2
    rw [h1] at hg1
    rw [h2] at hg2
    by_cases hk : k' = k
    · subst hk
      rw [dictGet?_dictSet_self] at hg2
      cases hg2
    · rw [dictGet?_dictSet_ne _ _ hk] at hg1
      rw [dictGet?_dictSet_ne _ _ hk] at hg2
      exact h6 k' b1 hg1 hg2
  · intro k' b2 hg2 hg1
    rw [h1] at hg1
    rw [h2] at hg2
    by_cases hk : k' = k
    · subst hk
      rw [dictGet?_dictSet_self] at hg1
      cases hg1
    · rw [dictGet?_dictSet_ne _ _ hk] at hg1
      rw [dictGet?_dictSet_ne _ _ hk] at hg2
      exact h7 k' b2 hg2 hg1

theorem pyTruthy_of_ne_nil {c : Cache} (h : c.store ≠ []) : pyTruthy (some c) = true := by
  cases hs : c.store with
  | nil => exact absurd hs h
  | cons a as => simp [pyTruthy, hs]

/-- One `read_refs` loop iteration preserves the global invariant. -/
theorem process_ref_GInv {n nwpb : Nat} {policy : String} {ref : Reference} {l1 l2 : Cache}
    {out : Cache × Option Cache × CacheStatus} (hInv : GInv n l1 l2)
    (h : l1.process_ref n nwpb policy ref (some l2) = some out) :
    ∃ l2b, out.2.1 = some l2b ∧ GInv n out.1 l2b := by
  obtain ⟨hisl2, hl2ne, hB1, hB2, h5, h6, h7⟩ := hInv
  have hInv' : GInv n l1 l2 := ⟨hisl2, hl2ne, hB1, hB2, h5, h6, h7⟩
  have htr : pyTruthy (some l2) = true := pyTruthy_of_ne_nil hl2ne
  unfold Cache.process_ref at h
  simp only [] at h
  cases hg1 : dictGet? l1.store (keyOf ref.index) with
  | none =>
    cases hi : ref.index with
    | none =>
      rw [hi] at hg1 h
      rw [is_hit_none_absent (c := l1.mark_ref_as_last_seen ref) hg1] at h
      simp only [] at h
      cases h
    | some s =>
      rw [hi] at hg1 h
      simp only [keyOf] at hg1
      rw [is_hit_absent (c := l1.mark_ref_as_last_seen ref) hg1] at h
      simp only [] at h
      rw [set_block_none_of_get_none (c := l1.mark_ref_as_last_seen ref) (i := some s) hg1] at h
      simp only [] at h
      cases h
  | some bs1 =>
    rw [is_hit_of_get (c := l1.mark_ref_as_last_seen ref) hg1] at h
    cases hA : (bs1.any fun b => b.tag = ref.tag) with
    | true =>
      rw [hA] at h
      simp only [] at h
      cases h
      exact ⟨l2, rfl, hInv'⟩
    | false =>
      rw [hA] at h
      simp only [] at h
      have ht : ref.tag ∉ tagsOf bs1 := (any_tag_false_iff _ _).mp hA
      cases hsb : (l1.mark_ref_as_last_seen ref).set_block policy n ref.index
          (ref.get_cache_entry nwpb) (some l2) with
      | none => rw [hsb] at h; cases h
      | some sbr =>
        rw [hsb] at h
        simp only [] at h
        rcases set_block_someArg_char (c := l1.mark_ref_as_last_seen ref) hg1 hsb with
          ⟨hlen, hsbr⟩ | ⟨evB, rest1, hbs1, hlen, hrest⟩
        · -- L1 set below capacity: lockstep phase
          subst hsbr
          simp only [] at h
          rw [htr] at h
          simp only [if_true] at h
          cases hg2 : dictGet? l2.store (keyOf ref.index) with
          | none =>
            cases hi : ref.index with
            | none =>
              rw [hi] at hg2 h
              rw [is_hit_none_absent (c := l2) hg2] at h
              simp only [] at h
              cases h
            | some s =>
              rw [hi] at hg2 h
              simp only [keyOf] at hg2
              rw [is_hit_absent (c := l2) hg2] at h
              simp only [] at h
              rw [set_block_none_of_get_none (c := l2) (i := some s) hg2] at h
              simp only [] at h
              cases h
          | some bs2 =>
            have hq12 := h5 _ _ _ hg1 hg2
            have hlock := qInv_lockstep hq12 ht (by simpa [tagsOf] using hlen)
            obtain ⟨hq2eq, hq2len, ht2, hqInv2⟩ := hlock
            have hA2 : (bs2.any fun b => b.tag = ref.tag) = false :=
              (any_tag_false_iff _ _).mpr ht2
            rw [is_hit_of_get (c := l2) hg2, hA2] at h
            simp only [] at h
            cases hsb2 : l2.set_block policy n ref.index (ref.get_cache_entry nwpb) none with
            | none => rw [hsb2] at h; cases h
            | some sbr2 =>
              rw [hsb2] at h
              simp only [] at h
              cases h
              rcases set_block_noneArg_char hg2 hsb2 with
                ⟨hlen2, hsbr2⟩ | ⟨evC, rest2, hbs2, hlen2, hsbr2⟩
              · subst hsbr2
                refine ⟨_, rfl, ?_⟩
                refine GInv_update (keyOf ref.index) (bs1 ++ [ref.get_cache_entry nwpb])
                  (bs2 ++ [ref.get_cache_entry nwpb]) hInv' rfl rfl hisl2 ?_ ?_ ?_
                · intro b hb
                  rcases List.mem_append.mp hb with hm | hm
                  · exact hB1 _ (dictGet?_mem hg1) b hm
                  · rw [List.mem_singleton.mp hm]; rfl
                · intro b hb
                  rcases List.mem_append.mp hb with hm | hm
                  · exact hB2 _ (dictGet?_mem hg2) b hm
                  · rw [List.mem_singleton.mp hm]; rfl
                · simp only [tagsOf, List.map_append, List.map_cons, List.map_nil]
                  exact hqInv2
              · exfalso
                apply hq2len
                simp only [tagsOf, List.length_map]
                exact hlen2
        · -- L1 set full: eviction phase
          have hkey : keyOf evB.index = keyOf ref.index := by
            have hmem : evB ∈ bs1 := by rw [hbs1]; exact List.mem_cons_self _ _
            exact hB1 _ (dictGet?_mem hg1) evB hmem
          rcases hrest with ⟨hcondF, _⟩ | ⟨_hcondT, l2a, hwb, hsbr⟩
          · exfalso
            have hc1 : (l1.mark_ref_as_last_seen ref).is_l2 = false := hisl2
            rw [htr, hc1] at hcondF
            simp at hcondF
          · cases hg2 : dictGet? l2.store (keyOf ref.index) with
            | none =>
              exfalso
              rw [← hkey] at hg2
              rw [set_blockNoL2_none_of_get_none hg2] at hwb
              cases hwb
            | some bs2 =>
              have hget2 : dictGet? l2.store (keyOf evB.index) = some bs2 := by
                rw [hkey]; exact hg2
              have hq12 := h5 _ _ _ hg1 hg2
              have hq1len : (tagsOf bs1).length = n := by simpa [tagsOf] using hlen
              have hq2len : bs2.length = n := by
                have := hq12.2.2.2.2.2.1 hq1len
                simpa [tagsOf] using this
              rcases set_blockNoL2_char hget2 hwb with ⟨hne, _⟩ | ⟨evC, rest2, hbs2, _, hl2a⟩
              · exact absurd hq2len hne
              · rw [hkey] at hl2a
                subst hsbr
                simp only [] at h
                have hstore : l2a.store = dictSet l2.store (keyOf ref.index) (rest2 ++ [evB]) :=
                  by rw [hl2a]
                have htra : pyTruthy (some l2a) = true := by
                  refine pyTruthy_of_ne_nil ?_
                  rw [hstore]
                  exact dictSet_ne_nil _ _ _
                rw [htra] at h
                simp only [if_true] at h
                have hga : dictGet? l2a.store (keyOf ref.index) = some (rest2 ++ [evB]) := by
                  rw [hstore]
                  exact dictGet?_dictSet_self _ _ _
                rw [is_hit_of_get (c := l2a) hga] at h
                -- the queue invariant, in evict shape
                have hq12' : qInv n (evB.tag :: tagsOf rest1) (evC.tag :: tagsOf rest2) := by
                  rw [hbs1, hbs2] at hq12
                  simpa [tagsOf] using hq12
                have ht' : ref.tag ∉ evB.tag :: tagsOf rest1 := by
                  rw [hbs1] at ht
                  simpa [tagsOf] using ht
                have hlen' : (evB.tag :: tagsOf rest1).length = n := by
                  rw [hbs1] at hlen
                  simpa [tagsOf] using hlen
                obtain ⟨_, hskip, hfill⟩ := qInv_evict hq12' ht' hlen'
                cases hA2 : ((rest2 ++ [evB]).any fun b => b.tag = ref.tag) with
                | true =>
                  rw [hA2] at h
                  simp only [] at h
                  cases h
                  refine ⟨_, rfl, ?_⟩
                  refine GInv_update (keyOf ref.index) (rest1 ++ [ref.get_cache_entry nwpb])
                    (rest2 ++ [evB]) hInv' rfl hstore hisl2 ?_ ?_ ?_
                  · intro b hb
                    rcases List.mem_append.mp hb with hm | hm
                    · refine hB1 _ (dictGet?_mem hg1) b ?_
                      rw [hbs1]; exact List.mem_cons_of_mem _ hm
                    · rw [List.mem_singleton.mp hm]; rfl
                  · intro b hb
                    rcases List.mem_append.mp hb with hm | hm
                    · refine hB2 _ (dictGet?_mem hg2) b ?_
                      rw [hbs2]; exact List.mem_cons_of_mem _ hm
                    · rw [List.mem_singleton.mp hm]; exact hkey
                  · have htin : ref.tag ∈ tagsOf rest2 ++ [evB.tag] := by
                      have := (any_tag_true_iff _ _).mp hA2
                      simpa [tagsOf] using this
                    have hres := hskip htin
                    simp only [tagsOf, List.map_append, List.map_cons, List.map_nil] at hres ⊢
                    exact hres
                | false =>
                  rw [hA2] at h
                  simp only [] at h
                  cases hsb2 : l2a.set_block policy n ref.index
                      (ref.get_cache_entry nwpb) none with
                  | none => rw [hsb2] at h; cases h
                  | some sbr2 =>
                    rw [hsb2] at h
                    simp only [] at h
                    cases h
                    rcases set_block_noneArg_char hga hsb2 with
                      ⟨hneq, _⟩ | ⟨evD, rest3, hsplit, _hlen3, hsbr2⟩
                    · exfalso
                      apply hneq
                      rw [hbs2] at hq2len
                      simp only [List.length_append, List.length_cons, List.length_nil]
                      simp only [List.length_cons] at hq2len
                      omega
                    · subst hsbr2
                      refine ⟨_, rfl, ?_⟩
                      refine GInv_update (keyOf ref.index) (rest1 ++ [ref.get_cache_entry nwpb])
                        (rest3 ++ [ref.get_cache_entry nwpb]) hInv' rfl ?_ hisl2 ?_ ?_ ?_
                      · show dictSet l2a.store (keyOf ref.index)
                            (rest3 ++ [ref.get_cache_entry nwpb]) =
                          dictSet l2.store (keyOf ref.index) (rest3 ++ [ref.get_cache_entry nwpb])
                        rw [hstore, dictSet_dictSet]
                      · intro b hb
                        rcases List.mem_append.mp hb with hm | hm
                        · refine hB1 _ (dictGet?_mem hg1) b ?_
                          rw [hbs1]; exact List.mem_cons_of_mem _ hm
                        · rw [List.mem_singleton.mp hm]; rfl
                      · intro b hb
                        rcases List.mem_append.mp hb with hm | hm
                        · have hbm : b ∈ rest2 ++ [evB] := by
                            rw [hsplit]; exact List.mem_cons_of_mem _ hm
                          rcases List.mem_append.mp hbm with hm2 | hm2
                          · refine hB2 _ (dictGet?_mem hg2) b ?_
                            rw [hbs2]; exact List.mem_cons_of_mem _ hm2
                          · rw [List.mem_singleton.mp hm2]; exact hkey
                        · rw [List.mem_singleton.mp hm]; rfl
                      · have htout : ref.tag ∉ tagsOf rest2 ++ [evB.tag] := by
                          have := (any_tag_false_iff _ _).mp hA2
                          simpa [tagsOf] using this
                        have hres := hfill htout
                        have hts : tagsOf rest2 ++ [evB.tag] = evD.tag :: tagsOf rest3 := by
                          have := congrArg tagsOf hsplit
                          simpa [tagsOf] using this
                        rw [hts] at hres
                        simp only [List.tail_cons] at hres
                        simp only [tagsOf, List.map_append, List.map_cons, List.map_nil] at hres ⊢
                        exact hres

/-- Lemma: `read_refs` preserves the global invariant along the whole sequence. -/
theorem read_refs_GInv {n nwpb : Nat} {policy : String} {refs : List Reference} {l1 l2 : Cache}
    {r : ReadRefsResult} (hInv : GInv n l1 l2)
    (h : l1.read_refs n nwpb policy refs (some l2) = some r) :
    ∃ l2b, r.l2 = some l2b ∧ GInv n r.l1 l2b := by
  induction refs generalizing l1 l2 r with
  | nil =>
    unfold Cache.read_refs at h
    cases h
    exact ⟨l2, rfl, hInv⟩
  | cons ref rest ih =>
    unfold Cache.read_refs at h
    cases hp : l1.process_ref n nwpb policy ref (some l2) with
    | none => rw [hp] at h; cases h
    | some out =>
      rw [hp] at h
      obtain ⟨l2b, hout, hInv2⟩ := process_ref_GInv hInv hp
      obtain ⟨c', l2', st⟩ := out
      simp only [] at h hout
      subst hout
      cases hr2 : c'.read_refs n nwpb policy rest (some l2b) with
      | none => rw [hr2] at h; cases h
      | some r2 =>
        rw [hr2] at h
        simp only [] at h
        cases h
        obtain ⟨l2c, hl2c, hInvc⟩ := ih hInv2 hr2
        exact ⟨l2c, hl2c, hInvc⟩

/-- The freshly constructed L1/L2 pair of `run_simulation` satisfies the
global invariant (all sets empty, identical key lists). -/
theorem GInv_init (n num_sets num_index_bits : Nat) (hns : 1 ≤ num_sets) :
    GInv n (Cache.init num_sets num_index_bits false)
      (Cache.init num_sets num_index_bits true) := by
  have hsame : (Cache.init num_sets num_index_bits true).store =
      (Cache.init num_sets num_index_bits false).store := rfl
  have hval : ∀ k bs,
      dictGet? (Cache.init num_sets num_index_bits false).store k = some bs → bs = [] := by
    intro k bs hk
    have hm := dictGet?_mem hk
    simp only [Cache.init] at hm
    rcases List.mem_map.mp hm with ⟨i, _, heq⟩
    cases heq
    rfl
  have hempty : ∀ p, p ∈ (Cache.init num_sets num_index_bits false).store →
      (p.2 : List CacheBlock) = [] := by
    intro p hp
    simp only [Cache.init] at hp
    rcases List.mem_map.mp hp with ⟨i, _, heq⟩
    rw [← heq]
  refine ⟨rfl, ?_, ?_, ?_, ?_, ?_, ?_⟩
  · simp only [Cache.init]
    intro hnil
    have hlen := congrArg List.length hnil
    simp at hlen
    omega
  · intro p hp b hb
    rw [hempty p hp] at hb
    cases hb
  · intro p hp b hb
    rw [hempty p hp] at hb
    cases hb
  · intro k bs1 bs2 h1 h2
    rw [hsame] at h2
    rw [hval _ _ h1, hval _ _ h2]
    exact qInv_nil n
  · intro k bs1 h1 h2
    rw [hsame] at h2
    rw [h1] at h2
    cases h2
  · intro k bs2 h2 h1
    rw [hsame] at h2
    rw [h1] at h2
    cases h2

theorem GInv_nodup_l1 {n : Nat} {l1 l2 : Cache} (hInv : GInv n l1 l2) :
    ∀ k bs, dictGet? l1.store k = some bs → (bs.map CacheBlock.tag).Nodup := by
  intro k bs h1
  cases h2 : dictGet? l2.store k with
  | none => exact hInv.2.2.2.2.2.1 k bs h1 h2
  | some bs2 => exact (hInv.2.2.2.2.1 k bs bs2 h1 h2).1

theorem GInv_nodup_l2 {n : Nat} {l1 l2 : Cache} (hInv : GInv n l1 l2) :
    ∀ k bs, dictGet? l2.store k = some bs → (bs.map CacheBlock.tag).Nodup := by
  intro k bs h2
  cases h1 : dictGet? l1.store k with
  | none => exact hInv.2.2.2.2.2.2 k bs h2 h1
  | some bs1 => exact (hInv.2.2.2.2.1 k bs1 bs h1 h2).2.1

/-- C3: starting from the freshly constructed L1 and L2 stores (as
`run_simulation` builds them), after any successful `read_refs` run —
during which the L2 store is filled both by L1 eviction write-back and by
direct fill-on-miss — the tags of the block entries within any single set
of the L1 store and of the L2 store are pairwise distinct. -/
theorem claim_c3_tags_unique_within_sets (num_sets num_index_bits nbs nwpb : Nat)
    (policy : String) (refs : List Reference) (r : ReadRefsResult) (hns : 1 ≤ num_sets)
    (h : (Cache.init num_sets num_index_bits false).read_refs nbs nwpb policy refs
        (some (Cache.init num_sets num_index_bits true)) = some r) :
    (∀ k bs, dictGet? r.l1.store k = some bs → (bs.map CacheBlock.tag).Nodup) ∧
      ∀ l2b k bs, r.l2 = some l2b → dictGet? l2b.store k = some bs →
        (bs.map CacheBlock.tag).Nodup := by
  obtain ⟨l2b, hl2b, hInv⟩ := read_refs_GInv (GInv_init nbs num_sets num_index_bits hns) h
  refine ⟨GInv_nodup_l1 hInv, ?_⟩
  intro l2c k bs hmatch hget
  rw [hl2b] at hmatch
  cases hmatch
  exact GInv_nodup_l2 hInv k bs hget

/-- The value of the single-reference `read_refs` run used to instantiate
the C3 theorem at a concrete input. -/
def c3res : ReadRefsResult :=
  { l1 := { store := [("0", [{ tag := some "1", index := none, data := [1] }])],
            recently_used_addrs := [(none, some "1")], is_l2 := false },
    l2 := some { store := [("0", [{ tag := some "1", index := none, data := [1] }])],
                 recently_used_addrs := [], is_l2 := true },
    statuses := [CacheStatus.miss], ret := none }

theorem claim_c3_tags_unique_within_sets_witness :
    ((1 : Nat) ≤ 1 ∧
      (Cache.init 1 0 false).read_refs 1 1 "lru" [mkReference 1 0 0 1 1]
          (some (Cache.init 1 0 true)) = some c3res) ∧
      (∀ k bs, dictGet? c3res.l1.store k = some bs → (bs.map CacheBlock.tag).Nodup) ∧
      ∀ l2b k bs, c3res.l2 = some l2b → dictGet? l2b.store k = some bs →
        (bs.map CacheBlock.tag).Nodup :=
  ⟨⟨by decide, by decide⟩,
    claim_c3_tags_unique_within_sets 1 0 1 1 "lru" [mkReference 1 0 0 1 1] c3res (by decide)
      (by decide)⟩

end CacheSim
